import Mathlib

/-!
Verification of the emil EML-to-PDF converter's worker pool, resource
governor, manager and attachment handling, shallowly embedded in Lean from
the Go sources (`internal/worker`, `internal/resource/manager.go`,
`internal/manager`, `internal/converter/html_renderer.go`).

Times are modelled in milliseconds as `Nat`, memory percentages as `Rat`,
Go errors as `Option String` (`none` = nil error), and channels as explicit
data (a bounded queue as a `List`, a capacity-1 channel as an `Option`,
channel close state as an inductive).
-/

namespace Worker

/-- `maxConsecutiveFailures` from internal/worker: threshold for self-healing. -/
def maxConsecutiveFailures : Nat := 5

/-- `maxRetries` from internal/worker: maximum retries per task. -/
def maxRetries : Nat := 3

/-- `backoffBase` from internal/worker: base backoff in milliseconds. -/
def backoffBase : Nat := 500

/-- `heartbeatInterval` from internal/worker: milliseconds between heartbeats. -/
def heartbeatInterval : Nat := 5000

/-- `models.TaskStatus`: the four task states. -/
inductive TaskStatus
  | pending
  | processing
  | complete
  | failed
deriving DecidableEq, Repr

/-- The data carried by a `models.StatusUpdate` sent from `processTask`:
its status, progress, the `ProcessingStats.Retries` value at send time, the
backoff named in a "Retrying (r/3) after backoff" message (`none` for
non-retry updates; the same value is the duration then slept), the error
quoted in that message, and the update's `Error` field. -/
structure Upd where
  status : TaskStatus
  progress : Rat
  retries : Nat
  backoffMs : Option Nat
  msgErr : Option String
  err : Option String
deriving DecidableEq, Repr

/-- An update is terminal when its status is complete or failed. -/
def Upd.isTerminal (u : Upd) : Bool :=
  match u.status with
  | TaskStatus.complete => true
  | TaskStatus.failed => true
  | _ => false

/-- The worker's two failure counters (`failCount`, `consecutiveErrors`). -/
structure WState where
  failCount : Nat
  consecutiveErrors : Nat
deriving DecidableEq, Repr

/-- Result of one `processTask` call: the status updates it sent in order,
the number of `convertFile` calls it made, and the worker's failure
counters at return. -/
structure RunResult where
  trace : List Upd
  attempts : Nat
  state : WState
deriving DecidableEq, Repr

/-- The error string of a cancelled Go context (`ctx.Err()`). -/
def cancelErr : String := "context canceled"

/-- The retry loop of `processTask` (internal/worker, lines 171-233),
starting at a given `retries` value. `convert i` is the outcome of the
conversion attempt made when `retries = i` (`none` = success); `cTop i`
says whether the top-of-loop cancellation check fires at `retries = i`, and
`cBack r` whether cancellation fires during the backoff sleep announced as
retry `r`. (`convertFile` itself also sends non-terminal progress updates;
those happen inside the collaborator call and are not part of this trace.)
The loop runs while `retries ≤ maxRetries`; on success it sends a complete
update and zeroes both counters; on failure it increments `retries` and
both counters, and if attempts remain it announces a retry with backoff
`retries * backoffBase` and sleeps; after the loop it sends a failed update
carrying the last error. -/
def processTaskLoop (cTop cBack : Nat → Bool) (convert : Nat → Option String)
    (s : WState) (retries : Nat) (lastErr : Option String) : RunResult :=
  if _h : retries ≤ maxRetries then
    if cTop retries then
      { trace := [⟨TaskStatus.failed, 0, retries, none, none, some cancelErr⟩],
        attempts := 0, state := s }
    else
      match convert retries with
      | none =>
        { trace := [⟨TaskStatus.complete, 1, retries, none, none, none⟩],
          attempts := 1, state := ⟨0, 0⟩ }
      | some e =>
        let s' : WState := ⟨s.failCount + 1, s.consecutiveErrors + 1⟩
        let r := retries + 1
        if r ≤ maxRetries then
          if cBack r then
            { trace := [⟨TaskStatus.processing, 0, r, some (r * backoffBase), some e, none⟩,
                        ⟨TaskStatus.failed, 0, r, none, none, some cancelErr⟩],
              attempts := 1, state := s' }
          else
            let rest := processTaskLoop cTop cBack convert s' r (some e)
            { trace := ⟨TaskStatus.processing, 0, r, some (r * backoffBase), some e, none⟩ :: rest.trace,
              attempts := rest.attempts + 1, state := rest.state }
        else
          let rest := processTaskLoop cTop cBack convert s' r (some e)
          { trace := rest.trace, attempts := rest.attempts + 1, state := rest.state }
  else
    { trace := [⟨TaskStatus.failed, 0, retries, none, none, lastErr⟩],
      attempts := 0, state := s }
termination_by maxRetries + 1 - retries
decreasing_by all_goals omega

/-- `processTask` (internal/worker, lines 157-234): sends the initial
processing update, then runs the retry loop from `retries = 0`. -/
def processTask (cTop cBack : Nat → Bool) (convert : Nat → Option String)
    (s : WState) : RunResult :=
  let r := processTaskLoop cTop cBack convert s 0 none
  { r with trace := ⟨TaskStatus.processing, 0, 0, none, none, none⟩ :: r.trace }

/-- The self-healing check in `Start` (internal/worker, lines 107-119), run
after each `processTask`: when `consecutiveErrors > maxConsecutiveFailures`
both counters are reset and `debug.FreeOSMemory()` is requested (returned
Bool); in either case the loop continues with the same worker (there is no
respawn in the code). -/
def selfHeal (s : WState) : WState × Bool :=
  if s.consecutiveErrors > maxConsecutiveFailures then (⟨0, 0⟩, true)
  else (s, false)

/-- The cancellation functions of a run in which the context is never
cancelled. -/
def noCancel : Nat → Bool := fun _ => false

/-- A conversion collaborator that fails on every attempt, with distinct
errors numbering the attempts. -/
def alwaysFail : Nat → Option String := fun i => some (Nat.repr i)

/-- The status channel is allocated with 100 slots (internal/manager,
`NewManager`). -/
def statusChanCap : Nat := 100

/-- `sendStatus` (internal/worker, lines 271-296): one non-blocking select
with a `default` arm, used uniformly for every update, terminal or not:
the update is appended when the channel has a free slot and silently
dropped otherwise. -/
def sendStatus (chan : List Upd) (u : Upd) : List Upd :=
  if chan.length < statusChanCap then chan ++ [u] else chan

/-- The close flag of a Go channel. -/
inductive ChanState
  | opened
  | closed
deriving DecidableEq, Repr

/-- Go's `close(ch)`: marks the channel closed, or panics (`none`) when the
channel is already closed (Go language spec). -/
def closeChan : ChanState → Option ChanState
  | ChanState.opened => some ChanState.closed
  | ChanState.closed => none

/-- `Stop` (internal/worker, lines 131-133): unconditionally
`close(w.stopChan)`, with no guard and no sync.Once. -/
def workerStop (stopChan : ChanState) : Option ChanState :=
  closeChan stopChan

/-- One tick of the `heartbeat` monitor (internal/worker, lines 136-154):
when `now - lastActivity > 3 × heartbeatInterval` it calls `Stop`;
otherwise it leaves the stop channel as it is. -/
def heartbeatTick (lastActivity now : Nat) (stopChan : ChanState) : Option ChanState :=
  if heartbeatInterval * 3 < now - lastActivity then workerStop stopChan
  else some stopChan

end Worker

namespace Resource

/-- `memoryHighWatermark` (internal/resource/manager.go): the hard
watermark percentage that triggers the critical-memory path. -/
def memoryHighWatermark : Rat := 75

/-- The governor's state (`resource.Manager`): configuration, current
worker count, the last scale-down timestamp (ms; the Go zero time is 0),
the sampled memory percentage, and the content of the capacity-1
`pauseProcessing` channel. -/
structure RState where
  targetMemory : Rat
  maxWorkers : Nat
  minWorkers : Nat
  currentWorkers : Nat
  lastScaleDown : Nat
  scaleUpDelay : Nat
  memUsage : Rat
  pauseChan : Option Bool
deriving DecidableEq, Repr

/-- Result of a governor step: the new state and the ±1 messages published
on `workerControl`, in order. -/
structure AdjustResult where
  state : RState
  deltas : List Int
deriving DecidableEq, Repr

/-- `adjustWorkerCount` (lines 160-185): no-op when the count is unchanged;
otherwise publishes `|newCount - current|` unit deltas of the appropriate
sign, stamps `lastScaleDown := now` on a decrease, and records
`currentWorkers := newCount`. -/
def adjustWorkerCount (s : RState) (newCount : Nat) (now : Nat) : AdjustResult :=
  if newCount = s.currentWorkers then ⟨s, []⟩
  else if s.currentWorkers < newCount then
    ⟨{ s with currentWorkers := newCount },
     List.replicate (newCount - s.currentWorkers) 1⟩
  else
    ⟨{ s with currentWorkers := newCount, lastScaleDown := now },
     List.replicate (s.currentWorkers - newCount) (-1)⟩

/-- A non-blocking send of `true` on the capacity-1 pause channel: fills an
empty channel, leaves a full one unchanged. -/
def tryPause (c : Option Bool) : Option Bool :=
  match c with
  | none => some true
  | some b => some b

/-- Whether a non-blocking pause send would be delivered. -/
def pauseDelivered (c : Option Bool) : Bool := c.isNone

/-- Result of one `adjustResources` call: new state, published worker
deltas, whether a pause was delivered, whether an OS memory trim was
requested. -/
structure TickResult where
  state : RState
  deltas : List Int
  pausePublished : Bool
  trimmed : Bool
deriving DecidableEq, Repr

/-- `adjustResources` (lines 99-157), with the sampled memory percentage
as input. `int(float64(c) * 0.75)` and `int(float64(c) * 0.9)` are
`3*c/4` and `9*c/10` in Nat division (0.75 is exact in binary; the nearest
double to 0.9 lies above 0.9, so float truncation agrees with ⌊9c/10⌋ for
every worker count in range); the float products `target*0.9` and
`target*0.6` are idealized as exact rationals. -/
def adjustResources (s0 : RState) (memUsage : Rat) (now : Nat) : TickResult :=
  let s := { s0 with memUsage := memUsage }
  if s.targetMemory < memUsage then
    let delivered := pauseDelivered s.pauseChan
    let s := { s with pauseChan := tryPause s.pauseChan }
    let newW := max (3 * s.currentWorkers / 4) s.minWorkers
    let r := adjustWorkerCount s newW now
    ⟨r.state, r.deltas, delivered, true⟩
  else
    let s := { s with pauseChan := none }
    if s.targetMemory * (9 / 10) < memUsage then
      let newW := max (9 * s.currentWorkers / 10) s.minWorkers
      let r := adjustWorkerCount s newW now
      ⟨r.state, r.deltas, false, false⟩
    else if memUsage < s.targetMemory * (3 / 5) then
      if s.scaleUpDelay < now - s.lastScaleDown then
        let newW := min (s.currentWorkers + 1) s.maxWorkers
        let r := adjustWorkerCount s newW now
        ⟨r.state, r.deltas, false, false⟩
      else ⟨s, [], false, false⟩
    else ⟨s, [], false, false⟩

/-- Result of one `monitorMemory` call: new state, published worker
deltas, whether a GC + trim was forced, the ms slept, and whether a pause
was delivered after the sleep. -/
structure MonResult where
  state : RState
  deltas : List Int
  gcForced : Bool
  sleptMs : Nat
  pausePublished : Bool
deriving DecidableEq, Repr

/-- Modelled from the spec: the critical-memory monitor of the resource
governor, whose source file is not among the staged sources. Spec §4.3:
it "watches for `mem_usage_pct > 75%` (hard watermark). When crossed:
force a full GC, trim memory, and collapse the worker pool to
`min_workers`; sleep 500 ms; if memory remains above the watermark,
re-publish `pause`." `memPre` is the sample that crosses the watermark;
`memPost` is the usage after the 500 ms sleep, against which the
re-publish condition is checked. The collapse goes through
`adjustWorkerCount` (a decrease, so it stamps the scale-down per the
spec's delta-publication rule) and the pause is the non-blocking send on
the capacity-1 pause channel. -/
def monitorMemory (s0 : RState) (memPre memPost : Rat) (now : Nat) : MonResult :=
  let s := { s0 with memUsage := memPre }
  if memoryHighWatermark < memPre then
    let sd :=
      if s.minWorkers < s.currentWorkers then
        let r := adjustWorkerCount s s.minWorkers now
        (r.state, r.deltas)
      else (s, ([] : List Int))
    if memoryHighWatermark < memPost then
      let delivered := pauseDelivered sd.1.pauseChan
      ⟨{ sd.1 with pauseChan := tryPause sd.1.pauseChan }, sd.2, true, 500, delivered⟩
    else
      ⟨sd.1, sd.2, true, 500, false⟩
  else
    ⟨s, [], false, 0, false⟩

/-- One tick of the governor's sampling loop: `adjustResources`, then
`monitorMemory`, each taking its own sample (`mem1`, `mem2`); `memPost`
is the post-sleep usage the monitor re-checks. Returns the final state
and all published worker deltas, in order. -/
def governorTick (s : RState) (mem1 mem2 memPost : Rat) (now : Nat) :
    RState × List Int :=
  let r1 := adjustResources s mem1 now
  let r2 := monitorMemory r1.state mem2 memPost now
  (r2.state, r1.deltas ++ r2.deltas)

end Resource

namespace Mgr

/-- A discovered file (`manager.FileInfo`): path and size at discovery. -/
structure FileInfo where
  path : String
  size : Int
deriving DecidableEq, Repr

/-- The aggregate counters of `models.Stats` that `Start` determines. -/
structure Stats where
  discovered : Nat
  successful : Nat
  failed : Nat
  totalFileSize : Int
deriving DecidableEq, Repr

/-- What a completed `Start` call leaves behind: final stats and the
failed-task report list. -/
structure StartResult where
  stats : Stats
  failedTasks : List FileInfo
deriving DecidableEq, Repr

/-- `Manager.Start` (internal/manager, lines 68-171). `discovery` is the
outcome of `discoverFiles` (lines 194-223, the `filepath.Walk` of the
source tree); the worker pipeline between enqueue and drain is abstracted
by `convertOk f`: whether the task for `f` eventually completed
successfully. Workers surface per-task failures only as status updates,
which feed the counters and `failedTasks` (each task's terminal update
taken as delivered); no per-task error reaches `Start`'s return value.
On a discovery error `Start` returns it wrapped in
"file discovery failed:"; in every other run it returns nil. -/
def managerStart (discovery : Except String (List FileInfo))
    (convertOk : FileInfo → Bool) : Except String StartResult :=
  match discovery with
  | Except.error e => Except.error ("file discovery failed: " ++ e)
  | Except.ok files =>
    Except.ok
      { stats := { discovered := files.length,
                   successful := (files.filter (fun f => convertOk f)).length,
                   failed := (files.filter (fun f => ! convertOk f)).length,
                   totalFileSize := (files.map FileInfo.size).sum },
        failedTasks := files.filter (fun f => ! convertOk f) }

end Mgr

namespace Conv

/-- The characters `sanitizeFilename` replaces
(internal/converter/html_renderer.go, line 169). -/
def invalidChars : List Char := ['/', '\\', ':', '*', '?', '\"', '<', '>', '|']

/-- One `strings.ReplaceAll(result, char, "_")` step; all nine characters
are single-byte, so the replacement is characterwise. -/
def replaceAllChar (s : List Char) (c : Char) : List Char :=
  s.map fun x => if x = c then '_' else x

/-- `sanitizeFilename` (lines 166-177): the nine replacements folded over
the filename in order. -/
def sanitizeFilename (s : List Char) : List Char :=
  invalidChars.foldl replaceAllChar s

/-- Decimal rendering of a nonnegative `%d` in `fmt.Sprintf`. -/
def natToDigits (n : Nat) : List Char :=
  if _h : n < 10 then [Char.ofNat (48 + n)]
  else natToDigits (n / 10) ++ [Char.ofNat (48 + n % 10)]
termination_by n
decreasing_by omega

/-- Reads a digit list back as the number it renders. -/
def digitsToNat (l : List Char) : Nat :=
  l.foldl (fun a c => 10 * a + (c.toNat - 48)) 0

/-- `filepath.Ext` on a bare filename: the suffix starting at the final
dot, empty when there is none (at this point the name has been joined
under the attachment directory, so the base holds no separator). -/
def fileExt (s : List Char) : List Char :=
  if '.' ∈ s then '.' :: (s.reverse.takeWhile (fun c => c ≠ '.')).reverse
  else []

/-- `fmt.Sprintf("%s_%d%s", name, counter, ext)`. -/
def candName (stem ext : List Char) (n : Nat) : List Char :=
  stem ++ '_' :: (natToDigits n ++ ext)

/-- The ten decimal digit characters read back to their values. -/
lemma digit_char_toNat : ∀ m : Nat, m < 10 → (Char.ofNat (48 + m)).toNat = 48 + m := by
  decide

/-- Reading back a rendered number recovers it. -/
lemma digitsToNat_natToDigits : ∀ n : Nat, digitsToNat (natToDigits n) = n := by
  intro n
  induction n using Nat.strong_induction_on with
  | _ n ih =>
    rw [natToDigits]
    by_cases h : n < 10
    · simp only [h, dite_true]
      simp [digitsToNat, digit_char_toNat n h]
    · simp only [h, dite_false]
      have hmod : n % 10 < 10 := Nat.mod_lt _ (by norm_num)
      have hdiv := ih (n / 10) (by omega)
      simp only [digitsToNat, List.foldl_append, List.foldl_cons, List.foldl_nil]
      simp only [digitsToNat] at hdiv
      rw [hdiv, digit_char_toNat _ hmod]
      omega

/-- Decimal rendering is injective. -/
lemma natToDigits_injective : Function.Injective natToDigits :=
  Function.LeftInverse.injective digitsToNat_natToDigits

/-- Candidate names with the same stem and extension and different
counters differ. -/
lemma candName_injective (stem ext : List Char) :
    Function.Injective (candName stem ext) := by
  intro a b hab
  simp only [candName, List.append_cancel_left_eq, List.cons.injEq,
    List.append_cancel_right_eq, true_and] at hab
  exact natToDigits_injective hab

/-- Among the first `used.length + 1` candidate counters there is one
whose name is not taken: the candidates are pairwise distinct and `used`
is finite. -/
lemma exists_unused (used : List (List Char)) (stem ext : List Char) :
    ∃ n, candName stem ext (n + 1) ∉ used := by
  by_contra hcon
  push_neg at hcon
  have hinj : Function.Injective (fun i : Nat => candName stem ext (i + 1)) :=
    fun a b hab => by
      have := candName_injective stem ext hab
      omega
  have hsub : (Finset.range (used.length + 1)).image
      (fun i => candName stem ext (i + 1)) ⊆ used.toFinset := by
    intro x hx
    simp only [Finset.mem_image, Finset.mem_range] at hx
    obtain ⟨i, _, rfl⟩ := hx
    exact List.mem_toFinset.mpr (hcon i)
  have hcard := Finset.card_le_card hsub
  rw [Finset.card_image_of_injective _ hinj, Finset.card_range] at hcard
  have := used.toFinset_card_le
  omega

/-- `ensureUniqueFilename` (lines 180-199): return the path unchanged when
nothing of that name exists; otherwise split off the extension and return
`name_N + ext` for the least counter `N ≥ 1` (the Go loop counts up from
1) that names nothing in the directory. `used` is the set of names already
present. -/
def ensureUniqueFilename (used : List (List Char)) (f : List Char) : List Char :=
  if f ∈ used then
    let ext := fileExt f
    let stem := f.take (f.length - ext.length)
    candName stem ext (Nat.find (exists_unused used stem ext) + 1)
  else f

/-- The attachment loop of `HandleAttachments`
(internal/converter/html_renderer.go, lines 121-161) at filename
granularity: each attachment's filename is sanitized, made unique against
the directory's current contents, and the file is written (so the chosen
name is present for the following attachments); returns the saved names
in order. -/
def saveAttachments (used : List (List Char)) : List (List Char) → List (List Char)
  | [] => []
  | f :: fs =>
    let p := ensureUniqueFilename used (sanitizeFilename f)
    p :: saveAttachments (p :: used) fs

end Conv

namespace Worker

/-- The retry loop makes at most `maxRetries + 1 - retries` conversion
attempts when entered at a given `retries` value. -/
lemma processTaskLoop_attempts_le (cT cB : Nat → Bool) (conv : Nat → Option String) :
    ∀ (n : Nat) (s : WState) (retries : Nat) (lastErr : Option String),
      maxRetries + 1 - retries ≤ n →
      (processTaskLoop cT cB conv s retries lastErr).attempts ≤ maxRetries + 1 - retries := by
  intro n
  induction n with
  | zero =>
    intro s retries lastErr h
    have hr : ¬ retries ≤ maxRetries := by omega
    rw [processTaskLoop]
    simp [hr]
  | succ n ih =>
    intro s retries lastErr h
    rw [processTaskLoop]
    by_cases hr : retries ≤ maxRetries
    · simp only [hr, dite_true]
      by_cases hc : cT retries
      · simp [hc]
      · simp only [Bool.not_eq_true] at hc
        simp only [hc]
        cases hconv : conv retries with
        | none => simp; omega
        | some e =>
          simp only
          by_cases hrr : retries + 1 ≤ maxRetries
          · by_cases hb : cB (retries + 1)
            · simp only [hrr, if_true, hb]
              simp
              omega
            · simp only [Bool.not_eq_true] at hb
              simp only [hrr, if_true, hb]
              have hrec := ih ⟨s.failCount + 1, s.consecutiveErrors + 1⟩ (retries + 1) (some e)
                (by omega)
              simp
              omega
          · simp only [hrr, if_false]
            have hrec := ih ⟨s.failCount + 1, s.consecutiveErrors + 1⟩ (retries + 1) (some e)
              (by omega)
            simp
            omega
    · simp [hr]

/-- Every conversion attempt before the last one made by the loop failed:
attempting stops as soon as one attempt succeeds. -/
lemma processTaskLoop_stops_on_success (cT cB : Nat → Bool) (conv : Nat → Option String) :
    ∀ (n : Nat) (s : WState) (retries : Nat) (lastErr : Option String) (i : Nat),
      maxRetries + 1 - retries ≤ n →
      i + 1 < (processTaskLoop cT cB conv s retries lastErr).attempts →
      (conv (retries + i)).isSome := by
  intro n
  induction n with
  | zero =>
    intro s retries lastErr i h hi
    have hr : ¬ retries ≤ maxRetries := by omega
    rw [processTaskLoop] at hi
    simp [hr] at hi
  | succ n ih =>
    intro s retries lastErr i h hi
    rw [processTaskLoop] at hi
    by_cases hr : retries ≤ maxRetries
    · simp only [hr, dite_true] at hi
      by_cases hc : cT retries
      · simp [hc] at hi
      · simp only [Bool.not_eq_true] at hc
        simp only [hc] at hi
        cases hconv : conv retries with
        | none => simp [hconv] at hi
        | some e =>
          simp only [hconv] at hi
          by_cases hrr : retries + 1 ≤ maxRetries
          · by_cases hb : cB (retries + 1)
            · simp only [hrr, if_true, hb] at hi
              simp at hi
            · simp only [Bool.not_eq_true] at hb
              simp only [hrr, if_true, hb] at hi
              simp at hi
              cases i with
              | zero => simp [hconv]
              | succ j =>
                have := ih ⟨s.failCount + 1, s.consecutiveErrors + 1⟩ (retries + 1) (some e) j
                  (by omega) (by omega)
                have harg : retries + (j + 1) = retries + 1 + j := by omega
                rw [harg]
                exact this
          · simp only [hrr, if_false] at hi
            simp at hi
            cases i with
            | zero => simp [hconv]
            | succ j =>
              have := ih ⟨s.failCount + 1, s.consecutiveErrors + 1⟩ (retries + 1) (some e) j
                (by omega) (by omega)
              have harg : retries + (j + 1) = retries + 1 + j := by omega
              rw [harg]
              exact this
    · simp [hr] at hi

/-- The loop always sends at least one status update. -/
lemma processTaskLoop_trace_ne_nil (cT cB : Nat → Bool) (conv : Nat → Option String) :
    ∀ (n : Nat) (s : WState) (retries : Nat) (lastErr : Option String),
      maxRetries + 1 - retries ≤ n →
      (processTaskLoop cT cB conv s retries lastErr).trace ≠ [] := by
  intro n
  induction n with
  | zero =>
    intro s retries lastErr h
    have hr : ¬ retries ≤ maxRetries := by omega
    rw [processTaskLoop]
    simp [hr]
  | succ n ih =>
    intro s retries lastErr h
    rw [processTaskLoop]
    by_cases hr : retries ≤ maxRetries
    · simp only [hr, dite_true]
      by_cases hc : cT retries
      · simp [hc]
      · simp only [Bool.not_eq_true] at hc
        simp only [hc]
        cases hconv : conv retries with
        | none => simp
        | some e =>
          simp only
          by_cases hrr : retries + 1 ≤ maxRetries
          · by_cases hb : cB (retries + 1)
            · simp [hrr, hb]
            · simp only [Bool.not_eq_true] at hb
              simp [hrr, hb]
          · simp only [hrr, if_false]
            simp
            exact ih ⟨s.failCount + 1, s.consecutiveErrors + 1⟩ (retries + 1) (some e) (by omega)
    · simp [hr]

/-- If the last update the loop sends is `complete`, both failure counters
are zero at return. -/
lemma processTaskLoop_complete_state (cT cB : Nat → Bool) (conv : Nat → Option String) :
    ∀ (n : Nat) (s : WState) (retries : Nat) (lastErr : Option String) (u : Upd),
      maxRetries + 1 - retries ≤ n →
      (processTaskLoop cT cB conv s retries lastErr).trace.getLast? = some u →
      u.status = TaskStatus.complete →
      (processTaskLoop cT cB conv s retries lastErr).state = ⟨0, 0⟩ := by
  intro n
  induction n with
  | zero =>
    intro s retries lastErr u h hlast hst
    have hr : ¬ retries ≤ maxRetries := by omega
    rw [processTaskLoop] at hlast ⊢
    simp [hr] at hlast
    rw [← hlast] at hst
    simp at hst
  | succ n ih =>
    intro s retries lastErr u h hlast hst
    rw [processTaskLoop] at hlast ⊢
    by_cases hr : retries ≤ maxRetries
    · simp only [hr, dite_true] at hlast ⊢
      by_cases hc : cT retries
      · simp [hc] at hlast
        rw [← hlast] at hst
        simp at hst
      · simp only [Bool.not_eq_true] at hc
        simp only [hc] at hlast ⊢
        cases hconv : conv retries with
        | none => simp
        | some e =>
          simp only [hconv] at hlast ⊢
          by_cases hrr : retries + 1 ≤ maxRetries
          · by_cases hb : cB (retries + 1)
            · simp only [hrr, if_true, hb] at hlast ⊢
              simp at hlast
              rw [← hlast] at hst
              simp at hst
            · simp only [Bool.not_eq_true] at hb
              simp only [hrr, if_true, hb, Bool.false_eq_true, if_false] at hlast ⊢
              have hne := processTaskLoop_trace_ne_nil cT cB conv n
                ⟨s.failCount + 1, s.consecutiveErrors + 1⟩ (retries + 1) (some e) (by omega)
              obtain ⟨a, t, hat⟩ := List.exists_cons_of_ne_nil hne
              rw [hat, List.getLast?_cons_cons] at hlast
              exact ih ⟨s.failCount + 1, s.consecutiveErrors + 1⟩ (retries + 1) (some e) u
                (by omega) (by rw [hat]; exact hlast) hst
          · simp only [hrr, if_false] at hlast ⊢
            exact ih ⟨s.failCount + 1, s.consecutiveErrors + 1⟩ (retries + 1) (some e) u
              (by omega) hlast hst
    · simp [hr] at hlast
      rw [← hlast] at hst
      simp at hst

/-- Every update the loop sends that names a backoff names exactly
`retries * backoffBase` milliseconds for its `retries` value. -/
lemma processTaskLoop_backoff (cT cB : Nat → Bool) (conv : Nat → Option String) :
    ∀ (n : Nat) (s : WState) (retries : Nat) (lastErr : Option String) (u : Upd),
      maxRetries + 1 - retries ≤ n →
      u ∈ (processTaskLoop cT cB conv s retries lastErr).trace →
      ∀ b, u.backoffMs = some b → b = u.retries * backoffBase := by
  intro n
  induction n with
  | zero =>
    intro s retries lastErr u h hu b hb
    have hr : ¬ retries ≤ maxRetries := by omega
    rw [processTaskLoop] at hu
    simp [hr] at hu
    rw [hu] at hb
    simp at hb
  | succ n ih =>
    intro s retries lastErr u h hu b hb
    rw [processTaskLoop] at hu
    by_cases hr : retries ≤ maxRetries
    · simp only [hr, dite_true] at hu
      by_cases hc : cT retries
      · simp [hc] at hu
        rw [hu] at hb
        simp at hb
      · simp only [Bool.not_eq_true] at hc
        simp only [hc] at hu
        cases hconv : conv retries with
        | none =>
          simp [hconv] at hu
          rw [hu] at hb
          simp at hb
        | some e =>
          simp only [hconv] at hu
          by_cases hrr : retries + 1 ≤ maxRetries
          · by_cases hb' : cB (retries + 1)
            · simp only [hrr, if_true, hb'] at hu
              simp at hu
              rcases hu with hu | hu <;> subst hu
              · simp at hb ⊢
                omega
              · simp at hb
            · simp only [Bool.not_eq_true] at hb'
              simp only [hrr, if_true, hb', Bool.false_eq_true, if_false] at hu
              simp only [List.mem_cons] at hu
              rcases hu with hu | hu
              · subst hu
                simp at hb ⊢
                omega
              · exact ih ⟨s.failCount + 1, s.consecutiveErrors + 1⟩ (retries + 1) (some e) u
                  (by omega) hu b hb
          · simp only [hrr, if_false] at hu
            exact ih ⟨s.failCount + 1, s.consecutiveErrors + 1⟩ (retries + 1) (some e) u
              (by omega) hu b hb
    · simp [hr] at hu
      rw [hu] at hb
      simp at hb

/-- A run in which every attempt fails and no cancellation occurs: the full
trace, the attempt count, and the counter increments, computed by
unfolding the four loop iterations. -/
lemma processTask_allFail_eq (conv : Nat → Option String) (s : WState)
    (e0 e1 e2 e3 : String)
    (h0 : conv 0 = some e0) (h1 : conv 1 = some e1)
    (h2 : conv 2 = some e2) (h3 : conv 3 = some e3) :
    processTask noCancel noCancel conv s =
      { trace := [⟨TaskStatus.processing, 0, 0, none, none, none⟩,
                  ⟨TaskStatus.processing, 0, 1, some 500, some e0, none⟩,
                  ⟨TaskStatus.processing, 0, 2, some 1000, some e1, none⟩,
                  ⟨TaskStatus.processing, 0, 3, some 1500, some e2, none⟩,
                  ⟨TaskStatus.failed, 0, 4, none, none, some e3⟩],
        attempts := 4,
        state := ⟨s.failCount + 4, s.consecutiveErrors + 4⟩ } := by
  simp [processTask, processTaskLoop, noCancel, h0, h1, h2, h3, maxRetries, backoffBase]

end Worker

/-- C1 counterexample: with a conversion that fails every attempt, and no
cancellation, `processTask` makes 4 conversion attempts, exceeding the
claimed bound of `maxRetries` (=3) attempts: the loop `retries ≤ maxRetries`
runs for `retries = 0, 1, 2, 3`. -/
theorem processTask_four_attempts :
    (Worker.processTask Worker.noCancel Worker.noCancel Worker.alwaysFail ⟨0, 0⟩).attempts = 4 ∧
    ¬ (Worker.processTask Worker.noCancel Worker.noCancel Worker.alwaysFail
        ⟨0, 0⟩).attempts ≤ Worker.maxRetries := by
  have h := Worker.processTask_allFail_eq Worker.alwaysFail ⟨0, 0⟩ "0" "1" "2" "3"
    rfl rfl rfl rfl
  rw [h]
  exact ⟨rfl, by simp [Worker.maxRetries]⟩

/-- C1 (amended): `processTask` performs up to `maxRetries + 1` (=4)
conversion attempts (the first attempt plus at most `maxRetries` retries);
it stops attempting as soon as one attempt succeeds (every attempt before
the last one made failed); and when every attempt fails, the run ends with
a terminal failed update carrying the last attempt's error. -/
theorem processTask_retry_contract :
    (∀ (cT cB : Nat → Bool) (conv : Nat → Option String) (s : Worker.WState),
        (Worker.processTask cT cB conv s).attempts ≤ Worker.maxRetries + 1) ∧
    (∀ (cT cB : Nat → Bool) (conv : Nat → Option String) (s : Worker.WState) (i : Nat),
        i + 1 < (Worker.processTask cT cB conv s).attempts → (conv i).isSome) ∧
    (∀ (conv : Nat → Option String) (s : Worker.WState),
        (∀ i, i ≤ Worker.maxRetries → (conv i).isSome) →
        (Worker.processTask Worker.noCancel Worker.noCancel conv s).trace.getLast? =
          some ⟨Worker.TaskStatus.failed, 0, Worker.maxRetries + 1, none, none,
                conv Worker.maxRetries⟩) := by
  refine ⟨?_, ?_, ?_⟩
  · intro cT cB conv s
    have h := Worker.processTaskLoop_attempts_le cT cB conv (Worker.maxRetries + 1) s 0 none
      (by omega)
    simpa [Worker.processTask] using h
  · intro cT cB conv s i hi
    have h := Worker.processTaskLoop_stops_on_success cT cB conv (Worker.maxRetries + 1) s 0
      none i (by omega) (by simpa [Worker.processTask] using hi)
    simpa using h
  · intro conv s hall
    obtain ⟨e0, he0⟩ := Option.isSome_iff_exists.mp (hall 0 (by simp [Worker.maxRetries]))
    obtain ⟨e1, he1⟩ := Option.isSome_iff_exists.mp (hall 1 (by simp [Worker.maxRetries]))
    obtain ⟨e2, he2⟩ := Option.isSome_iff_exists.mp (hall 2 (by simp [Worker.maxRetries]))
    obtain ⟨e3, he3⟩ := Option.isSome_iff_exists.mp (hall 3 (by simp [Worker.maxRetries]))
    rw [Worker.processTask_allFail_eq conv s e0 e1 e2 e3 he0 he1 he2 he3]
    simp [Worker.maxRetries, he3]

/-- C1 witness: the amended contract instantiated on an always-failing
conversion. -/
theorem processTask_retry_contract_witness :
    (Worker.processTask Worker.noCancel Worker.noCancel Worker.alwaysFail
      ⟨0, 0⟩).attempts ≤ Worker.maxRetries + 1 ∧
    (Worker.processTask Worker.noCancel Worker.noCancel Worker.alwaysFail
      ⟨0, 0⟩).trace.getLast? =
        some ⟨Worker.TaskStatus.failed, 0, Worker.maxRetries + 1, none, none,
              Worker.alwaysFail Worker.maxRetries⟩ :=
  ⟨processTask_retry_contract.1 Worker.noCancel Worker.noCancel Worker.alwaysFail ⟨0, 0⟩,
   processTask_retry_contract.2.2 Worker.alwaysFail ⟨0, 0⟩
     (by intro i _; simp [Worker.alwaysFail])⟩

/-- C3 counterexample: one task whose every attempt fails, run from zeroed
counters with no cancellation, leaves `consecutiveErrors = 4`, not the 1
the claim's "incremented exactly once per terminal task failure" predicts:
the counter is incremented once per failed attempt. -/
theorem consecutiveErrors_after_one_failure :
    (Worker.processTask Worker.noCancel Worker.noCancel Worker.alwaysFail
      ⟨0, 0⟩).state.consecutiveErrors = 4 ∧
    (Worker.processTask Worker.noCancel Worker.noCancel Worker.alwaysFail
      ⟨0, 0⟩).state.consecutiveErrors ≠ 1 := by
  have h := Worker.processTask_allFail_eq Worker.alwaysFail ⟨0, 0⟩ "0" "1" "2" "3"
    rfl rfl rfl rfl
  rw [h]
  exact ⟨rfl, by simp⟩

/-- C3 (amended): the consecutive-errors counter is set to zero on any
successful conversion (any run whose last update is complete returns with
both counters zero); it is incremented once per failed attempt, hence by
`maxRetries + 1` (=4) per terminal task failure; and when, after a task,
the counter exceeds `maxConsecutiveFailures` (=5), the worker resets both
failure counters to zero and requests an OS memory trim (otherwise it does
neither); in both cases its loop continues with the same worker. -/
theorem consecutiveErrors_discipline :
    (∀ (cT cB : Nat → Bool) (conv : Nat → Option String) (s : Worker.WState)
        (u : Worker.Upd),
        (Worker.processTask cT cB conv s).trace.getLast? = some u →
        u.status = Worker.TaskStatus.complete →
        (Worker.processTask cT cB conv s).state = ⟨0, 0⟩) ∧
    (∀ (conv : Nat → Option String) (s : Worker.WState) (e0 e1 e2 e3 : String),
        conv 0 = some e0 → conv 1 = some e1 → conv 2 = some e2 → conv 3 = some e3 →
        (Worker.processTask Worker.noCancel Worker.noCancel conv s).state =
          ⟨s.failCount + (Worker.maxRetries + 1),
           s.consecutiveErrors + (Worker.maxRetries + 1)⟩) ∧
    (∀ st : Worker.WState,
        (Worker.maxConsecutiveFailures < st.consecutiveErrors →
          Worker.selfHeal st = (⟨0, 0⟩, true)) ∧
        (¬ Worker.maxConsecutiveFailures < st.consecutiveErrors →
          Worker.selfHeal st = (st, false))) := by
  refine ⟨?_, ?_, ?_⟩
  · intro cT cB conv s u hlast hst
    have hne := Worker.processTaskLoop_trace_ne_nil cT cB conv (Worker.maxRetries + 1) s 0
      none (by omega)
    obtain ⟨a, t, hat⟩ := List.exists_cons_of_ne_nil hne
    simp only [Worker.processTask] at hlast ⊢
    rw [hat, List.getLast?_cons_cons] at hlast
    exact Worker.processTaskLoop_complete_state cT cB conv (Worker.maxRetries + 1) s 0 none u
      (by omega) (by rw [hat]; exact hlast) hst
  · intro conv s e0 e1 e2 e3 h0 h1 h2 h3
    rw [Worker.processTask_allFail_eq conv s e0 e1 e2 e3 h0 h1 h2 h3]
    simp [Worker.maxRetries]
  · intro st
    constructor <;> intro h <;> simp [Worker.selfHeal, h]

/-- C3 witness: the amended discipline instantiated on a succeeding run, an
always-failing run, and a counter past the threshold. -/
theorem consecutiveErrors_discipline_witness :
    (Worker.processTask Worker.noCancel Worker.noCancel (fun _ => none) ⟨7, 7⟩).state =
      ⟨0, 0⟩ ∧
    (Worker.processTask Worker.noCancel Worker.noCancel Worker.alwaysFail ⟨2, 2⟩).state =
      ⟨2 + (Worker.maxRetries + 1), 2 + (Worker.maxRetries + 1)⟩ ∧
    Worker.selfHeal ⟨9, 6⟩ = (⟨0, 0⟩, true) :=
  ⟨consecutiveErrors_discipline.1 Worker.noCancel Worker.noCancel (fun _ => none) ⟨7, 7⟩
     ⟨Worker.TaskStatus.complete, 1, 0, none, none, none⟩
     (by simp [Worker.processTask, Worker.processTaskLoop, Worker.noCancel,
           Worker.maxRetries])
     rfl,
   consecutiveErrors_discipline.2.1 Worker.alwaysFail ⟨2, 2⟩ "0" "1" "2" "3"
     rfl rfl rfl rfl,
   (consecutiveErrors_discipline.2.2 ⟨9, 6⟩).1 (by decide)⟩

/-- C7: every status update sent by `processTask` that announces a backoff
announces exactly `retries * backoffBase` (=retry number × 500 ms), the
duration then slept; and a task whose every attempt fails with no
cancellation produces exactly the trace: initial processing update, three
retry announcements with backoffs 500, 1000, 1500 ms naming retries 1, 2,
3 and the preceding attempt's error, then the terminal failed update. -/
theorem retry_backoff_schedule :
    (∀ (cT cB : Nat → Bool) (conv : Nat → Option String) (s : Worker.WState)
        (u : Worker.Upd),
        u ∈ (Worker.processTask cT cB conv s).trace →
        ∀ b, u.backoffMs = some b → b = u.retries * Worker.backoffBase) ∧
    (∀ (conv : Nat → Option String) (s : Worker.WState) (e0 e1 e2 e3 : String),
        conv 0 = some e0 → conv 1 = some e1 → conv 2 = some e2 → conv 3 = some e3 →
        (Worker.processTask Worker.noCancel Worker.noCancel conv s).trace =
          [⟨Worker.TaskStatus.processing, 0, 0, none, none, none⟩,
           ⟨Worker.TaskStatus.processing, 0, 1, some 500, some e0, none⟩,
           ⟨Worker.TaskStatus.processing, 0, 2, some 1000, some e1, none⟩,
           ⟨Worker.TaskStatus.processing, 0, 3, some 1500, some e2, none⟩,
           ⟨Worker.TaskStatus.failed, 0, 4, none, none, some e3⟩]) := by
  constructor
  · intro cT cB conv s u hu b hb
    simp only [Worker.processTask, List.mem_cons] at hu
    rcases hu with hu | hu
    · subst hu; simp at hb
    · exact Worker.processTaskLoop_backoff cT cB conv (Worker.maxRetries + 1) s 0 none u
        (by omega) hu b hb
  · intro conv s e0 e1 e2 e3 h0 h1 h2 h3
    rw [Worker.processTask_allFail_eq conv s e0 e1 e2 e3 h0 h1 h2 h3]

/-- C7 witness: the backoff schedule instantiated on an always-failing
conversion. -/
theorem retry_backoff_schedule_witness :
    (Worker.processTask Worker.noCancel Worker.noCancel Worker.alwaysFail ⟨0, 0⟩).trace =
      [⟨Worker.TaskStatus.processing, 0, 0, none, none, none⟩,
       ⟨Worker.TaskStatus.processing, 0, 1, some 500, some "0", none⟩,
       ⟨Worker.TaskStatus.processing, 0, 2, some 1000, some "1", none⟩,
       ⟨Worker.TaskStatus.processing, 0, 3, some 1500, some "2", none⟩,
       ⟨Worker.TaskStatus.failed, 0, 4, none, none, some "3"⟩] :=
  retry_backoff_schedule.2 Worker.alwaysFail ⟨0, 0⟩ "0" "1" "2" "3" rfl rfl rfl rfl


/-- C2 exhibits the bug the claim's spec sentence legislates against:
`sendStatus` is one non-blocking select used uniformly for every update,
so with the 100-slot status channel full even a terminal complete update
is dropped (the channel is returned unchanged) — the blocking terminal
send the claim describes does not exist in the code. -/
theorem sendStatus_drops_terminal_when_full :
    Worker.Upd.isTerminal
        ⟨Worker.TaskStatus.complete, 1, 0, none, none, none⟩ = true ∧
    Worker.sendStatus
        (List.replicate Worker.statusChanCap
          ⟨Worker.TaskStatus.processing, 0, 0, none, none, none⟩)
        ⟨Worker.TaskStatus.complete, 1, 0, none, none, none⟩ =
      List.replicate Worker.statusChanCap
        ⟨Worker.TaskStatus.processing, 0, 0, none, none, none⟩ := by
  constructor
  · rfl
  · simp [Worker.sendStatus, Worker.statusChanCap]

/-- C9: `Stop` closes the stop channel unconditionally, so the first call
closes it and any second call — the heartbeat firing again on a worker
that stays unresponsive past 15 s, or the pool supervisor stopping a
worker the heartbeat already stopped — panics by closing a closed
channel. -/
theorem workerStop_not_idempotent :
    Worker.workerStop Worker.ChanState.opened = some Worker.ChanState.closed ∧
    Worker.workerStop Worker.ChanState.closed = none ∧
    (Worker.workerStop Worker.ChanState.opened).bind Worker.workerStop = none ∧
    Worker.heartbeatTick 0 16000 Worker.ChanState.closed = none := by
  refine ⟨rfl, rfl, rfl, ?_⟩
  simp [Worker.heartbeatTick, Worker.heartbeatInterval, Worker.workerStop,
    Worker.closeChan]

/-- C6: `Start` returns an error exactly when discovery fails, and then it
is the wrapped walk error; when discovery succeeds it returns nil
whatever the per-task outcomes, which appear only in the aggregate
counters and the failed-task report. -/
theorem start_error_iff_discovery_failed :
    (∀ (d : Except String (List Mgr.FileInfo)) (ok : Mgr.FileInfo → Bool),
        (∃ e, Mgr.managerStart d ok = Except.error e) ↔ (∃ e, d = Except.error e)) ∧
    (∀ (e : String) (ok : Mgr.FileInfo → Bool),
        Mgr.managerStart (Except.error e) ok =
          Except.error ("file discovery failed: " ++ e)) ∧
    (∀ (files : List Mgr.FileInfo) (ok : Mgr.FileInfo → Bool),
        Mgr.managerStart (Except.ok files) ok =
          Except.ok
            { stats := { discovered := files.length,
                         successful := (files.filter (fun f => ok f)).length,
                         failed := (files.filter (fun f => ! ok f)).length,
                         totalFileSize := (files.map Mgr.FileInfo.size).sum },
              failedTasks := files.filter (fun f => ! ok f) }) := by
  refine ⟨?_, ?_, ?_⟩
  · intro d ok
    cases d <;> simp [Mgr.managerStart]
  · intro e ok
    rfl
  · intro files ok
    rfl

/-- A +1 delta is published by `adjustWorkerCount` exactly on a strict
increase of the count. -/
lemma adjustWorkerCount_one_mem (s : Resource.RState) (n now : Nat) :
    (1 : Int) ∈ (Resource.adjustWorkerCount s n now).deltas ↔ s.currentWorkers < n := by
  unfold Resource.adjustWorkerCount
  by_cases h1 : n = s.currentWorkers
  · simp [h1]
  · by_cases h2 : s.currentWorkers < n
    · simp [h1, h2, List.mem_replicate]
      omega
    · simp [h1, h2, List.mem_replicate]

/-- `adjustWorkerCount` records the requested count. -/
lemma adjustWorkerCount_current (s : Resource.RState) (n now : Nat) :
    (Resource.adjustWorkerCount s n now).state.currentWorkers = n := by
  unfold Resource.adjustWorkerCount
  by_cases h1 : n = s.currentWorkers
  · simp [h1]
  · by_cases h2 : s.currentWorkers < n <;> simp [h1, h2]

/-- Every decrease performed by `adjustWorkerCount` stamps the
last-scale-down time. -/
lemma adjustWorkerCount_stamps (s : Resource.RState) (n now : Nat)
    (h : (Resource.adjustWorkerCount s n now).state.currentWorkers < s.currentWorkers) :
    (Resource.adjustWorkerCount s n now).state.lastScaleDown = now := by
  rw [adjustWorkerCount_current] at h
  unfold Resource.adjustWorkerCount
  have h1 : ¬ n = s.currentWorkers := by omega
  have h2 : ¬ s.currentWorkers < n := by omega
  simp [h1, h2]

/-- The critical-memory monitor never publishes a scale-up. -/
lemma monitorMemory_no_scale_up (s : Resource.RState) (memPre memPost : Rat)
    (now : Nat) :
    (1 : Int) ∉ (Resource.monitorMemory s memPre memPost now).deltas := by
  unfold Resource.monitorMemory
  by_cases hhi : Resource.memoryHighWatermark < memPre
  · by_cases hgt : s.minWorkers < s.currentWorkers
    · by_cases hpost : Resource.memoryHighWatermark < memPost
      · simp only [hhi, if_true, hgt, hpost]
        rw [adjustWorkerCount_one_mem]
        simp
        omega
      · simp only [hhi, if_true, hgt, if_neg hpost]
        rw [adjustWorkerCount_one_mem]
        simp
        omega
    · by_cases hpost : Resource.memoryHighWatermark < memPost
      · simp [hhi, hgt, hpost]
      · simp [hhi, hgt, hpost]
  · simp [hhi]

/-- C4: the Resource Governor publishes a scale-up only from the headroom
branch, whose guard requires `lastScaleDown + scaleUpDelay ≤ now` (the
code demands strictly more than `scaleUpDelay` elapsed); a published
scale-up is a single +1 delta raising the count by exactly one, still at
most `maxWorkers`; every decrease performed by `adjustWorkerCount` stamps
`lastScaleDown := now`; and the critical-memory monitor never scales up,
so a whole governor tick publishes +1 only under the delay condition.
The pool invariant `minWorkers ≤ currentWorkers ≤ maxWorkers` (I3) is
assumed. -/
theorem governor_scale_up_discipline :
    (∀ (s : Resource.RState) (mem : Rat) (now : Nat),
        s.minWorkers ≤ s.currentWorkers → s.currentWorkers ≤ s.maxWorkers →
        (1 : Int) ∈ (Resource.adjustResources s mem now).deltas →
        s.lastScaleDown + s.scaleUpDelay ≤ now ∧
        (Resource.adjustResources s mem now).deltas = [1] ∧
        (Resource.adjustResources s mem now).state.currentWorkers =
          s.currentWorkers + 1 ∧
        (Resource.adjustResources s mem now).state.currentWorkers ≤ s.maxWorkers) ∧
    (∀ (s : Resource.RState) (n now : Nat),
        (Resource.adjustWorkerCount s n now).state.currentWorkers < s.currentWorkers →
        (Resource.adjustWorkerCount s n now).state.lastScaleDown = now) ∧
    (∀ (s : Resource.RState) (memPre memPost : Rat) (now : Nat),
        (1 : Int) ∉ (Resource.monitorMemory s memPre memPost now).deltas) ∧
    (∀ (s : Resource.RState) (mem1 mem2 memPost : Rat) (now : Nat),
        s.minWorkers ≤ s.currentWorkers → s.currentWorkers ≤ s.maxWorkers →
        (1 : Int) ∈ (Resource.governorTick s mem1 mem2 memPost now).2 →
        s.lastScaleDown + s.scaleUpDelay ≤ now) := by
  have hA : ∀ (s : Resource.RState) (mem : Rat) (now : Nat),
      s.minWorkers ≤ s.currentWorkers → s.currentWorkers ≤ s.maxWorkers →
      (1 : Int) ∈ (Resource.adjustResources s mem now).deltas →
      s.lastScaleDown + s.scaleUpDelay ≤ now ∧
      (Resource.adjustResources s mem now).deltas = [1] ∧
      (Resource.adjustResources s mem now).state.currentWorkers =
        s.currentWorkers + 1 ∧
      (Resource.adjustResources s mem now).state.currentWorkers ≤ s.maxWorkers := by
    intro s mem now hmin hmax h1
    by_cases hhi : s.targetMemory < mem
    · exfalso
      simp only [Resource.adjustResources, if_pos hhi] at h1
      rw [adjustWorkerCount_one_mem] at h1
      simp at h1
      omega
    · by_cases hnear : s.targetMemory * (9 / 10) < mem
      · exfalso
        simp only [Resource.adjustResources, if_neg hhi, if_pos hnear] at h1
        rw [adjustWorkerCount_one_mem] at h1
        simp at h1
        omega
      · by_cases hlow : mem < s.targetMemory * (3 / 5)
        · by_cases hg : s.scaleUpDelay < now - s.lastScaleDown
          · by_cases hcm : s.currentWorkers < s.maxWorkers
            · have hmineq : (s.currentWorkers + 1) ⊓ s.maxWorkers =
                  s.currentWorkers + 1 := by omega
              simp only [Resource.adjustResources, if_neg hhi, if_neg hnear,
                if_pos hlow, if_pos hg, Resource.adjustWorkerCount, hmineq] at h1 ⊢
              rw [if_neg (show ¬ s.currentWorkers + 1 = s.currentWorkers by omega),
                 if_pos (Nat.lt_succ_self s.currentWorkers)] at h1 ⊢
              refine ⟨by omega, ?_, ?_, ?_⟩
              · simp [Nat.add_sub_cancel_left]
              · simp
              · simp
                omega
            · exfalso
              have hmineq : (s.currentWorkers + 1) ⊓ s.maxWorkers = s.maxWorkers := by
                omega
              simp only [Resource.adjustResources, if_neg hhi, if_neg hnear,
                if_pos hlow, if_pos hg, hmineq] at h1
              rw [adjustWorkerCount_one_mem] at h1
              simp at h1
              omega
          · exfalso
            simp only [Resource.adjustResources, if_neg hhi, if_neg hnear,
              if_pos hlow, if_neg hg] at h1
            simp at h1
        · exfalso
          simp only [Resource.adjustResources, if_neg hhi, if_neg hnear,
            if_neg hlow] at h1
          simp at h1
  refine ⟨hA, adjustWorkerCount_stamps, monitorMemory_no_scale_up, ?_⟩
  intro s mem1 mem2 memPost now hmin hmax h1
  unfold Resource.governorTick at h1
  simp only [List.mem_append] at h1
  rcases h1 with h1 | h1
  · exact (hA s mem1 now hmin hmax h1).1
  · exact absurd h1 (monitorMemory_no_scale_up _ _ _ _)

/-- C4 witness: the discipline instantiated on a concrete headroom tick
(target 100 %, usage 10 %, 40 s past a scale-down stamped at 0) and a
concrete scale-down from 4 workers to 2. -/
theorem governor_scale_up_discipline_witness :
    ((⟨100, 8, 1, 4, 0, 30000, 0, none⟩ : Resource.RState).lastScaleDown + 30000 ≤ 40000 ∧
     (Resource.adjustResources ⟨100, 8, 1, 4, 0, 30000, 0, none⟩ 10 40000).deltas = [1] ∧
     (Resource.adjustResources ⟨100, 8, 1, 4, 0, 30000, 0, none⟩ 10
        40000).state.currentWorkers = 4 + 1 ∧
     (Resource.adjustResources ⟨100, 8, 1, 4, 0, 30000, 0, none⟩ 10
        40000).state.currentWorkers ≤ 8) ∧
    (Resource.adjustWorkerCount ⟨100, 8, 1, 4, 0, 30000, 0, none⟩ 2
       5555).state.lastScaleDown = 5555 := by
  constructor
  · exact governor_scale_up_discipline.1 ⟨100, 8, 1, 4, 0, 30000, 0, none⟩ 10 40000
      (by norm_num) (by norm_num)
      (by norm_num [Resource.adjustResources, Resource.adjustWorkerCount,
        Resource.pauseDelivered, Resource.tryPause])
  · exact governor_scale_up_discipline.2.1 ⟨100, 8, 1, 4, 0, 30000, 0, none⟩ 2 5555
      (by norm_num [Resource.adjustWorkerCount])

/-- Sequential single-character replacements act as one pointwise
replacement as long as the replacement character `'_'` is not itself to be
replaced by a later pass. -/
lemma foldl_replaceAllChar_eq_map :
    ∀ (cs s : List Char), '_' ∉ cs →
      cs.foldl Conv.replaceAllChar s =
        s.map (fun c => if c ∈ cs then '_' else c) := by
  intro cs
  induction cs with
  | nil =>
    intro s _
    simp
  | cons a cs ih =>
    intro s h
    have h_ : '_' ∉ cs := fun hc => h (List.mem_cons_of_mem _ hc)
    rw [List.foldl_cons, ih (Conv.replaceAllChar s a) h_]
    simp only [Conv.replaceAllChar, List.map_map]
    refine List.map_congr_left ?_
    intro x _
    simp only [Function.comp_apply]
    by_cases hx : x = a
    · subst hx
      simp
    · simp [hx, List.mem_cons]

/-- The nine replacements of `sanitizeFilename` are the pointwise
replacement of invalid characters: `'_'` is not itself invalid. -/
lemma sanitizeFilename_eq_map (s : List Char) :
    Conv.sanitizeFilename s =
      s.map (fun c => if c ∈ Conv.invalidChars then '_' else c) :=
  foldl_replaceAllChar_eq_map Conv.invalidChars s (by decide)

/-- A sanitized filename contains no invalid character. -/
lemma sanitizeFilename_no_invalid (s : List Char) :
    ∀ c ∈ Conv.sanitizeFilename s, c ∉ Conv.invalidChars := by
  intro c hc
  rw [sanitizeFilename_eq_map] at hc
  simp only [List.mem_map] at hc
  obtain ⟨a, _, rfl⟩ := hc
  by_cases h : a ∈ Conv.invalidChars
  · rw [if_pos h]
    decide
  · rw [if_neg h]
    exact h

/-- `ensureUniqueFilename` never returns a name already present. -/
lemma ensureUniqueFilename_not_mem (used : List (List Char)) (f : List Char) :
    Conv.ensureUniqueFilename used f ∉ used := by
  unfold Conv.ensureUniqueFilename
  by_cases h : f ∈ used
  · simp only [h, if_true]
    exact Nat.find_spec (Conv.exists_unused used _ _)
  · simp [h]

/-- The attachment loop yields pairwise distinct names, all fresh with
respect to the initial directory contents. -/
lemma saveAttachments_nodup :
    ∀ (fs : List (List Char)) (used : List (List Char)),
      (Conv.saveAttachments used fs).Nodup ∧
      ∀ p ∈ Conv.saveAttachments used fs, p ∉ used := by
  intro fs
  induction fs with
  | nil =>
    intro used
    simp [Conv.saveAttachments]
  | cons f fs ih =>
    intro used
    simp only [Conv.saveAttachments]
    obtain ⟨hnd, hmem⟩ :=
      ih (Conv.ensureUniqueFilename used (Conv.sanitizeFilename f) :: used)
    constructor
    · refine List.nodup_cons.mpr ⟨?_, hnd⟩
      intro hp
      exact (hmem _ hp) (List.mem_cons_self _ _)
    · intro p hp
      rcases List.mem_cons.mp hp with rfl | hp
      · exact ensureUniqueFilename_not_mem used _
      · intro hpu
        exact (hmem _ hp) (List.mem_cons_of_mem _ hpu)

/-- C8: sanitization replaces each occurrence of the nine forbidden
characters with `_`, so a sanitized name contains none of them; collision
resolution returns a fresh name unchanged, and otherwise appends `_N`
before the extension for the least counter `N ≥ 1` giving an unused name;
the returned name never collides with the directory's contents, so the
attachment loop saves pairwise distinct paths. -/
theorem attachment_filename_uniqueness :
    (∀ s : List Char,
        Conv.sanitizeFilename s =
          s.map (fun c => if c ∈ Conv.invalidChars then '_' else c)) ∧
    (∀ (s : List Char) (c : Char),
        c ∈ Conv.sanitizeFilename s → c ∉ Conv.invalidChars) ∧
    (∀ (used : List (List Char)) (f : List Char),
        Conv.ensureUniqueFilename used f ∉ used) ∧
    (∀ (used : List (List Char)) (f : List Char), f ∉ used →
        Conv.ensureUniqueFilename used f = f) ∧
    (∀ (used : List (List Char)) (f : List Char), f ∈ used →
        ∃ N, 1 ≤ N ∧
          Conv.ensureUniqueFilename used f =
            Conv.candName (f.take (f.length - (Conv.fileExt f).length))
              (Conv.fileExt f) N ∧
          Conv.candName (f.take (f.length - (Conv.fileExt f).length))
              (Conv.fileExt f) N ∉ used ∧
          ∀ m, 1 ≤ m → m < N →
            Conv.candName (f.take (f.length - (Conv.fileExt f).length))
              (Conv.fileExt f) m ∈ used) ∧
    (∀ (used : List (List Char)) (fs : List (List Char)),
        (Conv.saveAttachments used fs).Nodup ∧
        ∀ p ∈ Conv.saveAttachments used fs, p ∉ used) := by
  refine ⟨sanitizeFilename_eq_map, sanitizeFilename_no_invalid,
    ensureUniqueFilename_not_mem, ?_, ?_, fun used fs => saveAttachments_nodup fs used⟩
  · intro used f hf
    simp [Conv.ensureUniqueFilename, hf]
  · intro used f hf
    refine ⟨Nat.find (Conv.exists_unused used
      (f.take (f.length - (Conv.fileExt f).length)) (Conv.fileExt f)) + 1,
      by omega, ?_, ?_, ?_⟩
    · simp [Conv.ensureUniqueFilename, hf]
    · exact Nat.find_spec (Conv.exists_unused used _ _)
    · intro m hm1 hm2
      by_contra hmem
      have := Nat.find_min (Conv.exists_unused used
        (f.take (f.length - (Conv.fileExt f).length)) (Conv.fileExt f))
        (show m - 1 < Nat.find (Conv.exists_unused used
          (f.take (f.length - (Conv.fileExt f).length)) (Conv.fileExt f)) by omega)
      have harg : m - 1 + 1 = m := by omega
      rw [harg] at this
      exact this hmem

/-- C8 witness: collision handling instantiated on a directory containing
`a.b`: a fresh name passes through unchanged, and saving `a.b` again
yields the least free numbered variant. -/
theorem attachment_filename_uniqueness_witness :
    Conv.ensureUniqueFilename [['a', '.', 'b']] ['c', '.', 'b'] = ['c', '.', 'b'] ∧
    (∃ N, 1 ≤ N ∧
      Conv.ensureUniqueFilename [['a', '.', 'b']] ['a', '.', 'b'] =
        Conv.candName
          (List.take (List.length ['a', '.', 'b'] -
            List.length (Conv.fileExt ['a', '.', 'b'])) ['a', '.', 'b'])
          (Conv.fileExt ['a', '.', 'b']) N ∧
      Conv.candName
          (List.take (List.length ['a', '.', 'b'] -
            List.length (Conv.fileExt ['a', '.', 'b'])) ['a', '.', 'b'])
          (Conv.fileExt ['a', '.', 'b']) N ∉ [['a', '.', 'b']] ∧
      ∀ m, 1 ≤ m → m < N →
        Conv.candName
            (List.take (List.length ['a', '.', 'b'] -
              List.length (Conv.fileExt ['a', '.', 'b'])) ['a', '.', 'b'])
            (Conv.fileExt ['a', '.', 'b']) m ∈ [['a', '.', 'b']]) :=
  ⟨attachment_filename_uniqueness.2.2.2.1 [['a', '.', 'b']] ['c', '.', 'b'] (by decide),
   attachment_filename_uniqueness.2.2.2.2.1 [['a', '.', 'b']] ['a', '.', 'b'] (by decide)⟩
